import Mathlib

/-!
Verification of the analysis engine in `Python/Week 8/main.py`
(class `COVIDAnalyzer`): data cleaning, frequency aggregation,
tokenization and summary construction, shallowly embedded in Lean.
Strings are modelled over their character lists; the embedding is
faithful for ASCII data (the arguments in all concrete inputs).
-/

namespace CovidAnalyzer

/-! ## Python string helpers -/

/-- Characters removed by Python's `str.strip()` (ASCII whitespace). -/
def isPySpace (c : Char) : Bool :=
  c == ' ' || c == '\t' || c == '\n' || c == '\r' || c == '\x0b' || c == '\x0c'

/-- Python `str.strip()`: drop whitespace from both ends. -/
def pyStrip (s : String) : String :=
  String.mk ((((s.data.dropWhile isPySpace).reverse).dropWhile isPySpace).reverse)

/-- Numeric value of a decimal digit character. -/
def dv (c : Char) : Nat := c.toNat - 48

/-! ## Date parsing: `datetime.strptime(s, "%Y-%m-%d")`

Python's `_strptime` compiles the format to the anchored regex
`(\d\d\d\d)-(1[0-2]|0[1-9]|[1-9])-(3[01]|[12]\d|0[1-9]|[1-9])`
consuming the whole string, then validates the day against the
month length (and `year >= MINYEAR = 1`).  In particular one-digit
months and days such as `"2020-1-1"` are accepted. -/

structure YMD where
  year : Nat
  month : Nat
  day : Nat
deriving DecidableEq

def isLeapYear (y : Nat) : Bool :=
  y % 4 == 0 && (y % 100 != 0 || y % 400 == 0)

def daysInMonth (y m : Nat) : Nat :=
  if m == 2 then (if isLeapYear y then 29 else 28)
  else if m == 4 || m == 6 || m == 9 || m == 11 then 30
  else 31

/-- Day component (`3[01]|[12]\d|0[1-9]|[1-9]` anchored at end of string). -/
def parseDayEnd : List Char → Option Nat
  | [d1, d2] =>
    if d1.isDigit && d2.isDigit then
      let v := dv d1 * 10 + dv d2
      if 1 ≤ v && v ≤ 31 then some v else none
    else none
  | [d1] => if d1.isDigit && 1 ≤ dv d1 then some (dv d1) else none
  | _ => none

/-- Month component followed by `-` and the day component. -/
def parseMonthDay : List Char → Option (Nat × Nat)
  | m1 :: m2 :: '-' :: rest =>
    if m1.isDigit && m2.isDigit then
      let v := dv m1 * 10 + dv m2
      if 1 ≤ v && v ≤ 12 then (parseDayEnd rest).map (fun d => (v, d)) else none
    else none
  | m1 :: '-' :: rest =>
    if m1.isDigit && 1 ≤ dv m1 then (parseDayEnd rest).map (fun d => (dv m1, d))
    else none
  | _ => none

/-- `datetime.strptime(s, "%Y-%m-%d")`, returning `none` where Python
raises `ValueError` (no match, trailing data, or invalid calendar date). -/
def pyStrptimeYMD (s : String) : Option YMD :=
  match s.data with
  | c1 :: c2 :: c3 :: c4 :: '-' :: rest =>
    if c1.isDigit && c2.isDigit && c3.isDigit && c4.isDigit then
      let y := dv c1 * 1000 + dv c2 * 100 + dv c3 * 10 + dv c4
      match parseMonthDay rest with
      | none => none
      | some (m, d) =>
        if 1 ≤ y && d ≤ daysInMonth y m then some ⟨y, m, d⟩ else none
    else none
  | _ => none

/-! ## Records and the cleaner (`clean_my_data`) -/

/-- One CSV row restricted to the fields the engine reads.  `year` models
the `'year'` dict entry, absent (`none`) in raw input and written by the
cleaner via `record['year'] = year`. -/
structure Record where
  title : String
  journal : String
  publish_time : String
  year : Option Nat
deriving DecidableEq

/-- One iteration of the `clean_my_data` loop body on a record: returns the
(possibly mutated) record and whether it was appended to `clean_data`. -/
def processRecord (r : Record) : Record × Bool :=
  if (pyStrip r.title).isEmpty then (r, false)
  else
    let pd := pyStrip r.publish_time
    if pd.isEmpty then (r, false)
    else
      match pyStrptimeYMD pd with
      | none => (r, false)
      | some d =>
        if 2019 ≤ d.year ∧ d.year ≤ 2024 then ({ r with year := some d.year }, true)
        else (r, false)

/-- The `clean_my_data` loop over the raw list; yields the raw list after
the run (records are mutated in place in Python, so kept entries carry the
new `year` field), the `clean_data` list, and `skipped_records`. -/
def cleanAux : List Record → List Record × List Record × Nat
  | [] => ([], [], 0)
  | r :: rs =>
    let p := processRecord r
    let rest := cleanAux rs
    if p.2 then (p.1 :: rest.1, p.1 :: rest.2.1, rest.2.2)
    else (p.1 :: rest.1, rest.2.1, rest.2.2 + 1)

/-- `COVIDAnalyzer.clean_my_data` on a fresh analyzer holding `data`
(the empty-input early return leaves `clean_data = []`, `skipped = 0`). -/
def cleanMyData (data : List Record) : List Record × List Record × Nat :=
  cleanAux data

/-! ## Frequency tables: `collections.Counter`

A `Counter` is a dict keyed in insertion order; we model it as an
association list whose key order is first-occurrence order. -/

variable {α : Type} [DecidableEq α]

/-- `counter[k] += 1`: increment an existing entry in place, else append
a fresh entry at the end (dict insertion order). -/
def bump (k : α) : List (α × Nat) → List (α × Nat)
  | [] => [(k, 1)]
  | e :: t => if e.1 = k then (e.1, e.2 + 1) :: t else e :: bump k t

/-- Folding `bump` over a list, starting from table `t`. -/
def tallyAux (t : List (α × Nat)) : List α → List (α × Nat)
  | [] => t
  | k :: l => tallyAux (bump k t) l

/-- `Counter(l)`: tally of a list, keys in first-occurrence order. -/
def tally (l : List α) : List (α × Nat) := tallyAux [] l

/-- Total of the counts of a table. -/
def sumCounts (t : List (α × Nat)) : Nat := (t.map Prod.snd).sum

/-- Total count attributed to key `k` in a table (tables built by `tally`
carry each key once, so this is that key's count, or 0 if absent). -/
def cnt (k : α) (t : List (α × Nat)) : Nat :=
  sumCounts (t.filter (fun e => decide (e.1 = k)))

/-- The elements of `l` not in `seen`, keeping only the first occurrence
of each, in order of that first occurrence. -/
def firstSeenAux (seen : List α) : List α → List α
  | [] => []
  | a :: l => if a ∈ seen then firstSeenAux seen l else a :: firstSeenAux (a :: seen) l

/-- The distinct elements of `l` in order of first occurrence. -/
def firstSeen (l : List α) : List α := firstSeenAux [] l

/-! ## Ranking: `Counter.most_common(n)`

`most_common(n)` is `heapq.nlargest(n, items, key=count)`, documented as
equivalent to a stable descending sort by count followed by `[:n]`; ties
keep dict (= first-insertion) order. -/

/-- Insert an entry into a descending-by-count list, after every entry of
strictly greater count and before ties (the entry being inserted came
earlier in the original list, so this is the stable position). -/
def insTable (x : α × Nat) : List (α × Nat) → List (α × Nat)
  | [] => [x]
  | y :: ys => if y.2 ≤ x.2 then x :: y :: ys else y :: insTable x ys

/-- Stable sort of a table by descending count. -/
def sortByCountDesc : List (α × Nat) → List (α × Nat)
  | [] => []
  | x :: xs => insTable x (sortByCountDesc xs)

/-- `Counter.most_common(n)`. -/
def mostCommon (t : List (α × Nat)) (n : Nat) : List (α × Nat) :=
  (sortByCountDesc t).take n

/-! ## `max(counter, key=counter.get)`

Python's `max` scans in iteration order and replaces the running best
only on a strictly greater value, so it returns the first key attaining
the maximum count. -/

def maxKeyAux (bk : α) (bc : Nat) : List (α × Nat) → α
  | [] => bk
  | e :: t => if bc < e.2 then maxKeyAux e.1 e.2 t else maxKeyAux bk bc t

/-- `max(table, key=table.get)`; `none` models the `ValueError` Python
raises on an empty iterable. -/
def pyMaxKey (t : List (α × Nat)) : Option α :=
  match t with
  | [] => none
  | e :: r => some (maxKeyAux e.1 e.2 r)

/-! ## Tokenizer (`analyze_research_topics`)

The source lower-cases each title and runs
`re.findall(r'\b[a-z]{4,}\b', title)`.  A candidate `[a-z]{4,}` block can
only match a maximal run of lowercase letters, and the `\b` anchors demand
that the characters adjacent to the run (when they exist) are not word
characters (`[a-zA-Z0-9_]` for ASCII data); a run bordered by a digit or
underscore is discarded whole. -/

def isLowerAlpha (c : Char) : Bool := 'a' ≤ c && c ≤ 'z'

/-- ASCII word character for the regex `\b` anchor. -/
def isWordChar (c : Char) : Bool :=
  ('a' ≤ c && c ≤ 'z') || ('A' ≤ c && c ≤ 'Z') || c.isDigit || c == '_'

/-- A `\b` anchor holds against a neighbouring character (or the string
edge, when there is none). -/
def edgeOk : Option Char → Bool
  | none => true
  | some c => !(isWordChar c)

/-- Left-to-right scan of `re.findall(r'\b[a-z]{4,}\b', ·)`: each maximal
lowercase run of length at least 4 whose neighbours satisfy `\b` is a
match.  `runPrev` is the character just before the current run (`none` at
the start of the string) and `run` the letters of the current run so far,
most recent first; a run is emitted when it ends, if long enough and with
both `\b` anchors holding. -/
def scanAux (runPrev : Option Char) (run : List Char) : List Char → List (List Char)
  | [] => if 4 ≤ run.length && edgeOk runPrev then [run.reverse] else []
  | c :: cs =>
    if isLowerAlpha c then scanAux runPrev (c :: run) cs
    else
      (if 4 ≤ run.length && edgeOk runPrev && edgeOk (some c) then [run.reverse] else []) ++
        scanAux (some c) [] cs

/-- `re.findall(r'\b[a-z]{4,}\b', s)` over a character list. -/
def findallTokens (l : List Char) : List (List Char) := scanAux none [] l

/-- The `stop_words` set of `analyze_research_topics`, verbatim. -/
def stopWords : List String :=
  ["the", "and", "of", "in", "to", "a", "for", "with", "on", "by",
   "from", "at", "an", "as", "is", "are", "was", "were", "be", "been",
   "have", "has", "had", "do", "does", "did", "will", "would", "could",
   "should", "may", "might", "can", "must", "shall", "this", "that",
   "these", "those", "covid", "coronavirus", "sars", "cov", "pandemic",
   "study", "analysis", "research"]

/-- Tokens of one title: lower-case, extract `\b[a-z]{4,}\b` matches,
drop stop words (order and duplicates preserved). -/
def tokenizeTitle (title : String) : List String :=
  ((findallTokens (title.data.map Char.toLower)).map (fun l => String.mk l)).filter
    (fun w => !(stopWords.contains w))

/-- Maximal runs of lowercase letters of a character list, in order
(`run` is the current run so far, most recent first). -/
def lowerRunsAux (run : List Char) : List Char → List (List Char)
  | [] => if run.isEmpty then [] else [run.reverse]
  | c :: cs =>
    if isLowerAlpha c then lowerRunsAux (c :: run) cs
    else
      (if run.isEmpty then [] else [run.reverse]) ++ lowerRunsAux [] cs

def lowerRuns (l : List Char) : List (List Char) := lowerRunsAux [] l

/-- Spec-side tokenizer, following the claim's words: lower-case, keep the
maximal runs of lowercase letters of length at least 4 (non-letters and
digits acting merely as separators), then remove stop words. -/
def specTokenize (title : String) : List String :=
  (((lowerRuns (title.data.map Char.toLower)).filter (fun r => 4 ≤ r.length)).map
    (fun l => String.mk l)).filter (fun w => !(stopWords.contains w))

/-- Reference enumeration for the amended tokenizer claim: walk the
string left to right; at each lowercase letter take the whole maximal run
`c :: cs.takeWhile isLowerAlpha`, keep it when it has length at least 4
and both neighbours pass the `\b` check, and continue after the run — so
the output lists the qualifying maximal runs in order, once per
occurrence.  (The `some c` passed on is only consulted if the next
character starts a run, which cannot happen right after a run: the
character following `dropWhile isLowerAlpha` is not a lowercase letter.) -/
def boundaryTokens : Option Char → List Char → List (List Char)
  | _, [] => []
  | prev, c :: cs =>
    if isLowerAlpha c then
      (if 4 ≤ (c :: cs.takeWhile isLowerAlpha).length && edgeOk prev &&
          edgeOk (cs.dropWhile isLowerAlpha).head? then
        [c :: cs.takeWhile isLowerAlpha] else []) ++
        boundaryTokens (some c) (cs.dropWhile isLowerAlpha)
    else
      boundaryTokens (some c) cs
termination_by _ l => l.length
decreasing_by
  all_goals simp only [List.length_cons]
  · have := (List.dropWhile_sublist (l := cs) isLowerAlpha).length_le
    omega
  · omega

/-! ## Journals (`analyze_journals`) -/

/-- The tally loop of `analyze_journals`: count the trimmed journal name,
skipping records whose trimmed journal is empty. -/
def countByJournalAux (t : List (String × Nat)) : List Record → List (String × Nat)
  | [] => t
  | r :: rs =>
    countByJournalAux
      (if (pyStrip r.journal).isEmpty then t else bump (pyStrip r.journal) t) rs

def countByJournal (clean : List Record) : List (String × Nat) :=
  countByJournalAux [] clean

/-- Line 221: `percentage = (count / len(self.clean_data)) * 100`; the
denominator is the full cleaned count, not the journal table's total. -/
def journalPct (count : Nat) (clean : List Record) : ℚ :=
  ((count : ℚ) / ((clean.length : ℚ))) * 100

/-- Outcome of `analyze_journals`: the top-10 listing with percentages plus
the unique-journal and with-journal totals, or the `ZeroDivisionError`
raised at line 230 when `total_journals == 0`. -/
inductive JournalsResult where
  | ok : List (String × Nat × ℚ) → Nat → Nat → JournalsResult
  | zeroDivisionError : JournalsResult
deriving DecidableEq

def analyzeJournals (clean : List Record) : JournalsResult :=
  let t := countByJournal clean
  if t.length = 0 then JournalsResult.zeroDivisionError
  else
    JournalsResult.ok ((mostCommon t 10).map (fun e => (e.1, e.2, journalPct e.2 clean)))
      t.length (sumCounts t)

/-! ## Publications (`analyze_publications`) -/

/-- `paper['year']` for every cleaned record; `none` models the `KeyError`
raised when a record lacks the derived field. -/
def getYears : List Record → Option (List Nat)
  | [] => some []
  | r :: rs =>
    match r.year, getYears rs with
    | some y, some ys => some (y :: ys)
    | _, _ => none

/-- The peak year printed by `analyze_publications`:
`max(year_counts, key=year_counts.get)`.  `none` covers the early return
on empty cleaned data and the (unreachable) missing-`year` `KeyError`. -/
def analyzePublicationsPeak (clean : List Record) : Option Nat :=
  if clean.isEmpty then none
  else
    match getYears clean with
    | none => none
    | some ys => pyMaxKey (tally ys)

/-! ## Summary (`create_summary_report`) -/

/-- Line 297: the summary's journal counter keys the raw (untrimmed)
`journal` value while filtering on the trimmed value being non-empty. -/
def summaryJournalCountsAux (t : List (String × Nat)) : List Record → List (String × Nat)
  | [] => t
  | r :: rs =>
    summaryJournalCountsAux
      (if (pyStrip r.journal).isEmpty then t else bump r.journal t) rs

def summaryJournalCounts (clean : List Record) : List (String × Nat) :=
  summaryJournalCountsAux [] clean

/-- Python `min` over a list; the empty case raises `ValueError` and is
unreachable at every call site (guarded by non-empty cleaned data). -/
def pyMinList (l : List Nat) : Nat :=
  match l with
  | [] => 0
  | x :: xs => xs.foldl Nat.min x

/-- Python `max` over a list; empty case unreachable as for `pyMinList`. -/
def pyMaxList (l : List Nat) : Nat :=
  match l with
  | [] => 0
  | x :: xs => xs.foldl Nat.max x

/-- The `summary` dict of `create_summary_report`. -/
structure Summary where
  analysis_date : String
  total_papers_analyzed : Nat
  year_range : String
  papers_by_year : List (Nat × Nat)
  top_5_journals : List (String × Nat)
  total_unique_journals : Nat
deriving DecidableEq

/-- Outcome of `create_summary_report`. -/
inductive ReportResult where
  /-- The summary dict is built, saved and returned. -/
  | ok : Summary → ReportResult
  /-- Empty cleaned data: the function prints an error and returns `None`. -/
  | noData : ReportResult
  /-- A cleaned record without a `'year'` entry (unreachable from the
  cleaner's output). -/
  | keyError : ReportResult
  /-- `list(journal_counts.keys())[0]` at line 323 raises `IndexError`
  when no cleaned record has a non-blank journal. -/
  | indexError : ReportResult
  /-- Modelled from the spec: the `EmptyDatasetError` the spec's
  ReportBuilder raises on empty cleaned data.  The source defines no such
  exception; the constructor only makes the claimed outcome statable. -/
  | emptyDatasetRaised : ReportResult
deriving DecidableEq

/-- `create_summary_report`, with the wall-clock reading
`datetime.now().strftime('%Y-%m-%d %H:%M:%S')` passed in as `now`. -/
def createSummaryReport (clean : List Record) (now : String) : ReportResult :=
  if clean.isEmpty then ReportResult.noData
  else
    match getYears clean with
    | none => ReportResult.keyError
    | some ys =>
      let yearCounts := tally ys
      let journalCounts := summaryJournalCounts clean
      let summary : Summary :=
        { analysis_date := now
          total_papers_analyzed := clean.length
          year_range :=
            toString (pyMinList (yearCounts.map Prod.fst)) ++ "-" ++
              toString (pyMaxList (yearCounts.map Prod.fst))
          papers_by_year := yearCounts
          top_5_journals := mostCommon journalCounts 5
          total_unique_journals := journalCounts.length }
      if journalCounts.isEmpty then ReportResult.indexError
      else ReportResult.ok summary

/-- The summary with its timestamp field blanked, to compare runs taken
at different wall-clock readings. -/
def maskResult : ReportResult → ReportResult
  | ReportResult.ok s => ReportResult.ok { s with analysis_date := "" }
  | r => r

/-! ## Spec-side cleaner predicate (for claim C2) -/

/-- Spec-side check, following the claim's words: the exact date pattern
`YYYY-MM-DD` (four digits, dash, two digits, dash, two digits). -/
def matchesExactYMDPattern (s : String) : Bool :=
  match s.data with
  | [y1, y2, y3, y4, h1, m1, m2, h2, d1, d2] =>
    y1.isDigit && y2.isDigit && y3.isDigit && y4.isDigit &&
      h1 == '-' && h2 == '-' && m1.isDigit && m2.isDigit && d1.isDigit && d2.isDigit
  | _ => false

/-- Spec-side drop condition, following the claim's words: empty or
whitespace-only title, empty `publish_time`, `publish_time` not of the
exact `YYYY-MM-DD` shape, or parsed year outside `[2019, 2024]`. -/
def specDropRecord (r : Record) : Bool :=
  (pyStrip r.title).isEmpty || r.publish_time == "" ||
    !(matchesExactYMDPattern r.publish_time) ||
    (match pyStrptimeYMD r.publish_time with
     | none => true
     | some d => !(decide (2019 ≤ d.year ∧ d.year ≤ 2024)))

/-- The cleaner's actual per-record drop condition, flattened: blank
title, blank trimmed `publish_time`, `strptime('%Y-%m-%d')` failure on
the trimmed value, or parsed year outside `[2019, 2024]`. -/
def dropRecord (r : Record) : Bool :=
  (pyStrip r.title).isEmpty || (pyStrip r.publish_time).isEmpty ||
    (match pyStrptimeYMD (pyStrip r.publish_time) with
     | none => true
     | some d => !(decide (2019 ≤ d.year ∧ d.year ≤ 2024)))

/-! ## Theorems -/

theorem processRecord_snd (r : Record) : (processRecord r).2 = !(dropRecord r) := by
  unfold processRecord dropRecord
  by_cases h1 : (pyStrip r.title).isEmpty = true
  · simp [h1]
  · by_cases h2 : (pyStrip r.publish_time).isEmpty = true
    · simp [h1, h2]
    · cases h3 : pyStrptimeYMD (pyStrip r.publish_time) with
      | none => simp [h1, h2, h3]
      | some d =>
        by_cases h4 : 2019 ≤ d.year ∧ d.year ≤ 2024 <;> simp [h1, h2, h3, h4]

theorem processRecord_kept (r : Record) (h : (processRecord r).2 = true) :
    ∃ d : YMD, pyStrptimeYMD (pyStrip r.publish_time) = some d ∧
      (processRecord r).1 = { r with year := some d.year } ∧
      2019 ≤ d.year ∧ d.year ≤ 2024 := by
  unfold processRecord at h ⊢
  by_cases h1 : (pyStrip r.title).isEmpty = true
  · simp [h1] at h
  · by_cases h2 : (pyStrip r.publish_time).isEmpty = true
    · simp [h1, h2] at h
    · cases h3 : pyStrptimeYMD (pyStrip r.publish_time) with
      | none => simp [h1, h2, h3] at h
      | some d =>
        by_cases h4 : 2019 ≤ d.year ∧ d.year ≤ 2024
        · exact ⟨d, rfl, by simp [h1, h2, h3, h4], h4.1, h4.2⟩
        · simp [h1, h2, h3, h4] at h

theorem processRecord_fields (r : Record) :
    (processRecord r).1.title = r.title ∧ (processRecord r).1.journal = r.journal ∧
      (processRecord r).1.publish_time = r.publish_time := by
  unfold processRecord
  by_cases h1 : (pyStrip r.title).isEmpty = true
  · simp [h1]
  · by_cases h2 : (pyStrip r.publish_time).isEmpty = true
    · simp [h1, h2]
    · cases h3 : pyStrptimeYMD (pyStrip r.publish_time) with
      | none => simp [h1, h2, h3]
      | some d =>
        by_cases h4 : 2019 ≤ d.year ∧ d.year ≤ 2024 <;> simp [h1, h2, h3, h4]

theorem processRecord_not_kept (r : Record) (h : (processRecord r).2 = false) :
    (processRecord r).1 = r := by
  unfold processRecord at h ⊢
  by_cases h1 : (pyStrip r.title).isEmpty = true
  · simp [h1]
  · by_cases h2 : (pyStrip r.publish_time).isEmpty = true
    · simp [h1, h2]
    · cases h3 : pyStrptimeYMD (pyStrip r.publish_time) with
      | none => simp [h1, h2, h3]
      | some d =>
        by_cases h4 : 2019 ≤ d.year ∧ d.year ≤ 2024
        · simp [h1, h2, h3, h4] at h
        · simp [h1, h2, h3, h4]

theorem cleanAux_data (data : List Record) :
    (cleanAux data).1 = data.map (fun r => (processRecord r).1) := by
  induction data with
  | nil => rfl
  | cons r rs ih =>
    simp only [cleanAux]
    cases h : (processRecord r).2 <;> simp [h, ih]

theorem cleanAux_clean (data : List Record) :
    (cleanAux data).2.1 =
      (data.filter (fun r => (processRecord r).2)).map (fun r => (processRecord r).1) := by
  induction data with
  | nil => rfl
  | cons r rs ih =>
    simp only [cleanAux]
    cases h : (processRecord r).2 <;> simp [h, ih]

theorem cleanAux_skipped (data : List Record) :
    (cleanAux data).2.2 = (data.filter (fun r => !(processRecord r).2)).length := by
  induction data with
  | nil => rfl
  | cons r rs ih =>
    simp only [cleanAux]
    cases h : (processRecord r).2 <;> simp [h, ih]

/-- Claim C1: for every raw record sequence, the number of cleaned records
plus the skipped count equals the number of raw records. -/
theorem C1_clean_plus_skipped_eq_raw (data : List Record) :
    (cleanMyData data).2.1.length + (cleanMyData data).2.2 = data.length := by
  induction data with
  | nil => rfl
  | cons r rs ih =>
    simp only [cleanMyData, cleanAux] at ih ⊢
    cases h : (processRecord r).2 <;> simp [h] <;> omega

/-- Claim C2 (counterexample): the record with title `"a"` and
`publish_time = "2020-1-01"` must be dropped under the claim's exact
`YYYY-MM-DD` pattern, yet the cleaner keeps it (Python's
`strptime('%Y-%m-%d')` accepts a one-digit month) and derives year 2020. -/
theorem C2_counterexample :
    specDropRecord ⟨"a", "", "2020-1-01", none⟩ = true ∧
    cleanMyData [⟨"a", "", "2020-1-01", none⟩] =
      ([⟨"a", "", "2020-1-01", some 2020⟩], [⟨"a", "", "2020-1-01", some 2020⟩], 0) := by
  decide

/-- Claim C2 (amended): a record is dropped exactly when its title is blank,
its trimmed `publish_time` is blank, the trimmed `publish_time` fails
`strptime('%Y-%m-%d')` (which allows one-digit month/day and requires a
valid calendar date), or the parsed year lies outside `[2019, 2024]`;
kept records have `year` set to the parsed year and keep input order. -/
theorem C2_amended_drop_iff (data : List Record) :
    (cleanMyData data).2.1 =
      (data.filter (fun r => !(dropRecord r))).map (fun r => (processRecord r).1) ∧
    (cleanMyData data).2.2 = (data.filter (fun r => dropRecord r)).length ∧
    (∀ r ∈ (cleanMyData data).2.1, ∃ d : YMD,
      pyStrptimeYMD (pyStrip r.publish_time) = some d ∧ r.year = some d.year ∧
      2019 ≤ d.year ∧ d.year ≤ 2024) := by
  refine ⟨?_, ?_, ?_⟩
  · rw [cleanMyData, cleanAux_clean, List.filter_congr]
    intro r _
    rw [processRecord_snd]
  · rw [cleanMyData, cleanAux_skipped, List.filter_congr]
    intro r _
    rw [processRecord_snd, Bool.not_not]
  · intro r hr
    rw [cleanMyData, cleanAux_clean] at hr
    obtain ⟨r0, hr0, rfl⟩ := List.mem_map.mp hr
    have hk : (processRecord r0).2 = true := (List.mem_filter.mp hr0).2
    obtain ⟨d, hd, he, hy1, hy2⟩ := processRecord_kept r0 hk
    refine ⟨d, ?_, ?_, hy1, hy2⟩
    · rw [he]
      exact hd
    · rw [he]

/-- Claim C2 witness: instantiating the kept-record clause at a concrete
cleaned record. -/
theorem C2_witness :
    (Record.mk "a" "J" "2020-05-06" (some 2020)) ∈
      (cleanMyData [Record.mk "a" "J" "2020-05-06" none]).2.1 ∧
    ∃ d : YMD,
      pyStrptimeYMD (pyStrip (Record.mk "a" "J" "2020-05-06" (some 2020)).publish_time) =
        some d ∧
      (Record.mk "a" "J" "2020-05-06" (some 2020)).year = some d.year ∧
      2019 ≤ d.year ∧ d.year ≤ 2024 :=
  ⟨by decide,
    (C2_amended_drop_iff [Record.mk "a" "J" "2020-05-06" none]).2.2
      (Record.mk "a" "J" "2020-05-06" (some 2020)) (by decide)⟩

/-- Claim C4 (counterexample): on an empty cleaned sequence
`create_summary_report` prints an error and returns `None`; it does not
raise the spec's `EmptyDatasetError` (no such exception exists in the
source). -/
theorem C4_counterexample :
    createSummaryReport [] "2024-01-01 00:00:00" = ReportResult.noData ∧
    ReportResult.noData ≠ ReportResult.emptyDatasetRaised := by
  decide

/-- Claim C4 (amended): on an empty cleaned sequence every
`create_summary_report` call returns no summary (the early `return None`
path), and for empty raw input the cleaner yields `clean = []` and
`skipped = 0`. -/
theorem C4_amended_no_data (now : String) :
    createSummaryReport [] now = ReportResult.noData ∧
    cleanMyData [] = ([], [], 0) :=
  ⟨rfl, rfl⟩

/-- Claim C5 (counterexample): a kept raw record is mutated in place — after
the cleaner runs, the raw sequence's record has gained a `year` field, so
the raw records are not unchanged. -/
theorem C5_counterexample :
    (cleanMyData [⟨"a", "J", "2020-05-06", none⟩]).1 =
      [⟨"a", "J", "2020-05-06", some 2020⟩] ∧
    (⟨"a", "J", "2020-05-06", some 2020⟩ : Record) ≠ ⟨"a", "J", "2020-05-06", none⟩ := by
  decide

/-- Claim C5 (amended): the cleaner keeps the input sequence's length and
order and leaves every dropped record unchanged, but each kept record is
mutated in place by setting its derived `year` field (its other fields are
untouched); it has no further side effect. -/
theorem C5_amended_mutation (data : List Record) :
    (cleanMyData data).1 = data.map (fun r => (processRecord r).1) ∧
    (∀ r : Record, (processRecord r).1.title = r.title ∧
      (processRecord r).1.journal = r.journal ∧
      (processRecord r).1.publish_time = r.publish_time) ∧
    (∀ r : Record, (processRecord r).2 = false → (processRecord r).1 = r) :=
  ⟨cleanAux_data data, fun r => processRecord_fields r,
    fun r h => processRecord_not_kept r h⟩

/-- Claim C5 witness: the dropped-record clause at a concrete record with a
blank title. -/
theorem C5_witness :
    (processRecord ⟨"", "J", "2020-05-06", none⟩).2 = false ∧
    (processRecord ⟨"", "J", "2020-05-06", none⟩).1 = ⟨"", "J", "2020-05-06", none⟩ :=
  ⟨by decide, (C5_amended_mutation []).2.2 ⟨"", "J", "2020-05-06", none⟩ (by decide)⟩

/-- Claim C3 (counterexample): two runs of the pipeline on the same raw
input produce different summaries, because `create_summary_report` stamps
`analysis_date` from `datetime.now()` — the wall-clock readings of the two
runs differ, so the summaries are not byte-identical. -/
theorem C3_counterexample :
    createSummaryReport ((cleanMyData [⟨"a", "J", "2020-05-06", none⟩]).2.1)
        "2024-01-01 00:00:00" ≠
      createSummaryReport ((cleanMyData [⟨"a", "J", "2020-05-06", none⟩]).2.1)
        "2024-01-02 00:00:00" := by
  decide

/-- Claim C3 (amended): the summary is a pure function of the cleaned data
and the wall-clock reading taken inside `create_summary_report`: two runs
on the same input agree on every field except `analysis_date`, which is
exactly the run's clock reading (the function also writes the summary to a
JSON file, a side effect outside the returned value). -/
theorem C3_amended_deterministic_mod_timestamp (clean : List Record) (t1 t2 : String) :
    maskResult (createSummaryReport clean t1) = maskResult (createSummaryReport clean t2) ∧
    (∀ s : Summary, createSummaryReport clean t1 = ReportResult.ok s →
      s.analysis_date = t1) := by
  constructor
  · unfold createSummaryReport
    by_cases h : clean.isEmpty = true
    · simp [h]
    · simp only [h, if_false]
      cases hy : getYears clean with
      | none => simp [maskResult]
      | some ys =>
        by_cases hj : (summaryJournalCounts clean).isEmpty = true <;>
          simp [hj, maskResult]
  · intro s hs
    unfold createSummaryReport at hs
    by_cases h : clean.isEmpty = true
    · simp [h] at hs
    · simp only [h, if_false] at hs
      cases hy : getYears clean with
      | none => rw [hy] at hs; simp at hs
      | some ys =>
        rw [hy] at hs
        by_cases hj : (summaryJournalCounts clean).isEmpty = true
        · simp [hj] at hs
        · simp only [Bool.false_eq_true, if_false] at hs
          rw [if_neg hj] at hs
          injection hs with hs
          rw [← hs]

/-- Claim C3 witness: the timestamp clause at a concrete one-record
cleaned dataset. -/
theorem C3_witness :
    createSummaryReport [Record.mk "a" "J" "2020-05-06" (some 2020)] "T1" =
      ReportResult.ok (Summary.mk "T1" 1 "2020-2020" [(2020, 1)] [("J", 1)] 1) ∧
    (Summary.mk "T1" 1 "2020-2020" [(2020, 1)] [("J", 1)] 1).analysis_date = "T1" :=
  ⟨by decide,
    (C3_amended_deterministic_mod_timestamp
        [Record.mk "a" "J" "2020-05-06" (some 2020)] "T1" "T2").2
      (Summary.mk "T1" 1 "2020-2020" [(2020, 1)] [("J", 1)] 1) (by decide)⟩

/-! ### Tally lemmas -/

theorem bump_map_fst (k : α) (t : List (α × Nat)) :
    (bump k t).map Prod.fst =
      if k ∈ t.map Prod.fst then t.map Prod.fst else t.map Prod.fst ++ [k] := by
  induction t with
  | nil => simp [bump]
  | cons e t ih =>
    by_cases he : e.1 = k
    · simp [bump, he]
    · by_cases hm : k ∈ t.map Prod.fst <;>
        simp [bump, he, ih, hm, Ne.symm he]

theorem bump_sumCounts (k : α) (t : List (α × Nat)) :
    sumCounts (bump k t) = sumCounts t + 1 := by
  induction t with
  | nil => simp [bump, sumCounts]
  | cons e t ih =>
    by_cases he : e.1 = k <;> simp [bump, he, sumCounts] <;>
      simp [sumCounts] at ih <;> omega

theorem bump_cnt_self (k : α) (t : List (α × Nat)) :
    cnt k (bump k t) = cnt k t + 1 := by
  induction t with
  | nil => simp [bump, cnt, sumCounts]
  | cons e t ih =>
    by_cases he : e.1 = k <;> simp [bump, cnt, sumCounts, he, List.filter_cons] <;>
      simp [cnt, sumCounts] at ih <;> omega

theorem bump_cnt_ne (k q : α) (t : List (α × Nat)) (hq : q ≠ k) :
    cnt q (bump k t) = cnt q t := by
  induction t with
  | nil => simp [bump, cnt, sumCounts, Ne.symm hq]
  | cons e t ih =>
    simp only [bump]
    by_cases he : e.1 = k
    · rw [if_pos he]
      have hne : e.1 ≠ q := by rw [he]; exact Ne.symm hq
      simp [cnt, sumCounts, List.filter_cons, hne]
    · rw [if_neg he]
      by_cases hq2 : e.1 = q
      · rw [show cnt q ((e.1, e.2) :: bump k t) = e.2 + cnt q (bump k t) from by
          simp [cnt, sumCounts, List.filter_cons, hq2]]
        rw [show cnt q (e :: t) = e.2 + cnt q t from by
          simp [cnt, sumCounts, List.filter_cons, hq2]]
        rw [ih]
      · rw [show cnt q ((e.1, e.2) :: bump k t) = cnt q (bump k t) from by
          simp [cnt, sumCounts, List.filter_cons, hq2]]
        rw [show cnt q (e :: t) = cnt q t from by
          simp [cnt, sumCounts, List.filter_cons, hq2]]
        exact ih

theorem tallyAux_sumCounts (l : List α) :
    ∀ t : List (α × Nat), sumCounts (tallyAux t l) = sumCounts t + l.length := by
  induction l with
  | nil => intro t; simp [tallyAux]
  | cons a l ih =>
    intro t
    simp only [tallyAux, List.length_cons]
    rw [ih, bump_sumCounts]
    omega

theorem tallyAux_cnt (l : List α) :
    ∀ (t : List (α × Nat)) (k : α), cnt k (tallyAux t l) = cnt k t + l.count k := by
  induction l with
  | nil => intro t k; simp [tallyAux]
  | cons a l ih =>
    intro t k
    simp only [tallyAux]
    rw [ih]
    by_cases hk : a = k
    · subst hk
      rw [bump_cnt_self, List.count_cons_self]
      omega
    · rw [bump_cnt_ne a k t (Ne.symm hk), List.count_cons_of_ne (Ne.symm hk)]

theorem firstSeenAux_congr (l : List α) :
    ∀ s1 s2 : List α, (∀ x, x ∈ s1 ↔ x ∈ s2) →
      firstSeenAux s1 l = firstSeenAux s2 l := by
  induction l with
  | nil => intro s1 s2 _; rfl
  | cons a l ih =>
    intro s1 s2 h
    simp only [firstSeenAux]
    by_cases ha : a ∈ s1
    · rw [if_pos ha, if_pos ((h a).mp ha)]
      exact ih s1 s2 h
    · rw [if_neg ha, if_neg (fun c => ha ((h a).mpr c))]
      congr 1
      refine ih (a :: s1) (a :: s2) ?_
      intro x
      simp [h x]

theorem tallyAux_map_fst (l : List α) :
    ∀ t : List (α × Nat),
      (tallyAux t l).map Prod.fst =
        t.map Prod.fst ++ firstSeenAux (t.map Prod.fst) l := by
  induction l with
  | nil => intro t; simp [tallyAux, firstSeenAux]
  | cons a l ih =>
    intro t
    simp only [tallyAux, firstSeenAux]
    by_cases ha : a ∈ t.map Prod.fst
    · rw [if_pos ha, ih, bump_map_fst, if_pos ha]
    · rw [if_neg ha, ih, bump_map_fst, if_neg ha]
      rw [firstSeenAux_congr l (t.map Prod.fst ++ [a]) (a :: t.map Prod.fst)
        (by intro x; simp [or_comm])]
      simp

theorem mem_firstSeenAux (l : List α) :
    ∀ (s : List α) (x : α), x ∈ firstSeenAux s l → x ∈ l := by
  induction l with
  | nil => intro s x h; simp [firstSeenAux] at h
  | cons a l ih =>
    intro s x h
    simp only [firstSeenAux] at h
    by_cases ha : a ∈ s
    · rw [if_pos ha] at h
      exact List.mem_cons_of_mem a (ih s x h)
    · rw [if_neg ha] at h
      rcases List.mem_cons.mp h with rfl | h
      · exact List.mem_cons_self x l
      · exact List.mem_cons_of_mem a (ih (a :: s) x h)

theorem firstSeenAux_nodup_notin (l : List α) :
    ∀ s : List α, (firstSeenAux s l).Nodup ∧ ∀ x ∈ firstSeenAux s l, x ∉ s := by
  induction l with
  | nil => intro s; simp [firstSeenAux]
  | cons a l ih =>
    intro s
    simp only [firstSeenAux]
    by_cases ha : a ∈ s
    · rw [if_pos ha]
      exact ih s
    · rw [if_neg ha]
      obtain ⟨hnd, hnotin⟩ := ih (a :: s)
      refine ⟨List.nodup_cons.mpr ⟨?_, hnd⟩, ?_⟩
      · intro hmem
        exact hnotin a hmem (List.mem_cons_self a s)
      · intro x hx
        rcases List.mem_cons.mp hx with rfl | hx
        · exact ha
        · intro hxs
          exact hnotin x hx (List.mem_cons_of_mem a hxs)

theorem tally_map_fst (l : List α) : (tally l).map Prod.fst = firstSeen l := by
  rw [tally, tallyAux_map_fst]
  rfl

theorem tally_sumCounts (l : List α) : sumCounts (tally l) = l.length := by
  rw [tally, tallyAux_sumCounts]
  simp [sumCounts]

theorem tally_cnt (l : List α) (k : α) : cnt k (tally l) = l.count k := by
  rw [tally, tallyAux_cnt]
  simp [cnt, sumCounts]

theorem tally_keys_nodup (l : List α) : ((tally l).map Prod.fst).Nodup := by
  rw [tally_map_fst]
  exact (firstSeenAux_nodup_notin l []).1

theorem cnt_eq_zero_of_not_mem (k : α) (t : List (α × Nat))
    (h : k ∉ t.map Prod.fst) : cnt k t = 0 := by
  induction t with
  | nil => rfl
  | cons e t ih =>
    simp only [List.map_cons, List.mem_cons] at h
    push_neg at h
    have hne : e.1 ≠ k := Ne.symm h.1
    rw [show cnt k (e :: t) = cnt k t from by
      simp [cnt, sumCounts, List.filter_cons, hne]]
    exact ih h.2

theorem cnt_of_nodup_mem (t : List (α × Nat)) :
    ∀ k c, (t.map Prod.fst).Nodup → (k, c) ∈ t → cnt k t = c := by
  induction t with
  | nil => intro k c _ h; simp at h
  | cons e t ih =>
    intro k c hnd hmem
    simp only [List.map_cons] at hnd
    obtain ⟨hhead, htail⟩ := List.nodup_cons.mp hnd
    rcases List.mem_cons.mp hmem with heq | hmem
    · rw [← heq] at hhead ⊢
      have hz : cnt k t = 0 := cnt_eq_zero_of_not_mem k t hhead
      rw [show cnt k ((k, c) :: t) = c + cnt k t from by
        simp [cnt, sumCounts, List.filter_cons]]
      rw [hz]
      omega
    · have hke : e.1 ≠ k := by
        intro hek
        exact hhead (hek ▸ (List.mem_map.mpr ⟨(k, c), hmem, rfl⟩))
      rw [show cnt k (e :: t) = cnt k t from by
        simp [cnt, sumCounts, List.filter_cons, hke]]
      exact ih k c htail hmem

theorem mem_tally_count (l : List α) (e : α × Nat) (he : e ∈ tally l) :
    e.2 = l.count e.1 := by
  have := cnt_of_nodup_mem (tally l) e.1 e.2 (tally_keys_nodup l) (by simpa using he)
  rw [tally_cnt] at this
  omega

theorem mem_tally_fst_mem (l : List α) (e : α × Nat) (he : e ∈ tally l) : e.1 ∈ l := by
  have : e.1 ∈ (tally l).map Prod.fst := List.mem_map.mpr ⟨e, he, rfl⟩
  rw [tally_map_fst] at this
  exact mem_firstSeenAux l [] e.1 this

/-! ### Sorting and ranking lemmas -/

theorem insTable_perm (x : α × Nat) (t : List (α × Nat)) :
    (insTable x t).Perm (x :: t) := by
  induction t with
  | nil => exact List.Perm.refl _
  | cons y ys ih =>
    simp only [insTable]
    by_cases h : y.2 ≤ x.2
    · rw [if_pos h]
    · rw [if_neg h]
      exact (ih.cons y).trans (List.Perm.swap x y ys)

theorem sortByCountDesc_perm (t : List (α × Nat)) : (sortByCountDesc t).Perm t := by
  induction t with
  | nil => exact List.Perm.refl _
  | cons x xs ih =>
    exact (insTable_perm x (sortByCountDesc xs)).trans (ih.cons x)

theorem mem_insTable (a x : α × Nat) (t : List (α × Nat)) :
    a ∈ insTable x t ↔ a = x ∨ a ∈ t := by
  rw [(insTable_perm x t).mem_iff]
  exact List.mem_cons

theorem insTable_sorted (x : α × Nat) (t : List (α × Nat))
    (h : t.Pairwise (fun a b => b.2 ≤ a.2)) :
    (insTable x t).Pairwise (fun a b => b.2 ≤ a.2) := by
  induction t with
  | nil => simp [insTable]
  | cons y ys ih =>
    obtain ⟨hy, hys⟩ := List.pairwise_cons.mp h
    simp only [insTable]
    by_cases hle : y.2 ≤ x.2
    · rw [if_pos hle]
      refine List.pairwise_cons.mpr ⟨?_, h⟩
      intro b hb
      rcases List.mem_cons.mp hb with rfl | hb
      · exact hle
      · exact le_trans (hy b hb) hle
    · rw [if_neg hle]
      refine List.pairwise_cons.mpr ⟨?_, ih hys⟩
      intro b hb
      rcases (mem_insTable b x ys).mp hb with rfl | hb
      · omega
      · exact hy b hb

theorem sortByCountDesc_sorted (t : List (α × Nat)) :
    (sortByCountDesc t).Pairwise (fun a b => b.2 ≤ a.2) := by
  induction t with
  | nil => simp [sortByCountDesc]
  | cons x xs ih => exact insTable_sorted x (sortByCountDesc xs) ih

theorem insTable_filter_self (x : α × Nat) (t : List (α × Nat)) (c : Nat)
    (hx : x.2 = c) :
    (insTable x t).filter (fun e => decide (e.2 = c)) =
      x :: t.filter (fun e => decide (e.2 = c)) := by
  induction t with
  | nil => simp [insTable, hx]
  | cons y ys ih =>
    simp only [insTable]
    by_cases hle : y.2 ≤ x.2
    · rw [if_pos hle]
      simp [List.filter_cons, hx]
    · rw [if_neg hle]
      have hyc : ¬ y.2 = c := by omega
      simp [List.filter_cons, hyc, ih]

theorem insTable_filter_ne (x : α × Nat) (t : List (α × Nat)) (c : Nat)
    (hx : x.2 ≠ c) :
    (insTable x t).filter (fun e => decide (e.2 = c)) =
      t.filter (fun e => decide (e.2 = c)) := by
  induction t with
  | nil => simp [insTable, hx]
  | cons y ys ih =>
    simp only [insTable]
    by_cases hle : y.2 ≤ x.2
    · rw [if_pos hle]
      simp [List.filter_cons, hx]
    · rw [if_neg hle]
      simp [List.filter_cons, ih]

theorem sortByCountDesc_filter (t : List (α × Nat)) (c : Nat) :
    (sortByCountDesc t).filter (fun e => decide (e.2 = c)) =
      t.filter (fun e => decide (e.2 = c)) := by
  induction t with
  | nil => rfl
  | cons x xs ih =>
    simp only [sortByCountDesc]
    by_cases hx : x.2 = c
    · rw [insTable_filter_self x _ c hx, ih]
      simp [List.filter_cons, hx]
    · rw [insTable_filter_ne x _ c hx, ih]
      simp [List.filter_cons, hx]

/-! ### First-maximum lemma for `max(counter, key=counter.get)` -/

theorem maxKeyAux_cases (t : List (α × Nat)) :
    ∀ (bk : α) (bc : Nat),
      (maxKeyAux bk bc t = bk ∧ ∀ e ∈ t, e.2 ≤ bc) ∨
      (∃ pre c post, t = pre ++ (maxKeyAux bk bc t, c) :: post ∧ bc < c ∧
        (∀ e ∈ pre, e.2 < c) ∧ (∀ e ∈ post, e.2 ≤ c)) := by
  induction t with
  | nil =>
    intro bk bc
    left
    exact ⟨rfl, by intro e he; simp at he⟩
  | cons e t ih =>
    intro bk bc
    by_cases hlt : bc < e.2
    · rw [show maxKeyAux bk bc (e :: t) = maxKeyAux e.1 e.2 t from by
        simp [maxKeyAux, hlt]]
      rcases ih e.1 e.2 with ⟨heq, hall⟩ | ⟨pre, c, post, ht, hc, hpre, hpost⟩
      · right
        refine ⟨[], e.2, t, ?_, hlt, by intro x hx; simp at hx, hall⟩
        simp [heq]
      · right
        refine ⟨e :: pre, c, post, ?_, lt_trans hlt hc, ?_, hpost⟩
        · rw [List.cons_append, ← ht]
        · intro x hx
          rcases List.mem_cons.mp hx with rfl | hx
          · exact hc
          · exact hpre x hx
    · rw [show maxKeyAux bk bc (e :: t) = maxKeyAux bk bc t from by
        simp [maxKeyAux, hlt]]
      rcases ih bk bc with ⟨heq, hall⟩ | ⟨pre, c, post, ht, hc, hpre, hpost⟩
      · left
        refine ⟨heq, ?_⟩
        intro x hx
        rcases List.mem_cons.mp hx with rfl | hx
        · omega
        · exact hall x hx
      · right
        refine ⟨e :: pre, c, post, ?_, hc, ?_, hpost⟩
        · rw [List.cons_append, ← ht]
        · intro x hx
          rcases List.mem_cons.mp hx with rfl | hx
          · omega
          · exact hpre x hx

/-- Claim C7: `most_common(n)` is the stable descending sort by count,
truncated to `n`: the result is a permutation prefix sorted by descending
count, entries of any fixed count keep their table order exactly, and the
table's key order is first-occurrence order of the underlying sequence —
never alphabetical order. -/
theorem C7_topn_stable (t : List (String × Nat)) (n : Nat) (l : List String) :
    mostCommon t n = (sortByCountDesc t).take n ∧
    (sortByCountDesc t).Perm t ∧
    (sortByCountDesc t).Pairwise (fun a b => b.2 ≤ a.2) ∧
    (∀ c : Nat, (sortByCountDesc t).filter (fun e => decide (e.2 = c)) =
      t.filter (fun e => decide (e.2 = c))) ∧
    (tally l).map Prod.fst = firstSeen l :=
  ⟨rfl, sortByCountDesc_perm t, sortByCountDesc_sorted t,
    fun c => sortByCountDesc_filter t c, tally_map_fst l⟩

theorem tally_ne_nil (l : List α) (h : l ≠ []) : tally l ≠ [] := by
  intro hnil
  cases l with
  | nil => exact h rfl
  | cons a l =>
    have := tally_map_fst (a :: l)
    rw [hnil] at this
    simp only [List.map_nil] at this
    rw [firstSeen, firstSeenAux] at this
    rw [if_neg (by simp)] at this
    exact List.noConfusion this

theorem getYears_ne_nil (clean : List Record) (ys : List Nat)
    (hne : clean ≠ []) (hy : getYears clean = some ys) : ys ≠ [] := by
  cases clean with
  | nil => exact absurd rfl hne
  | cons r rs =>
    simp only [getYears] at hy
    cases hr : r.year with
    | none => rw [hr] at hy; exact Option.noConfusion hy
    | some y =>
      rw [hr] at hy
      cases hrs : getYears rs with
      | none => rw [hrs] at hy; exact Option.noConfusion hy
      | some ys2 =>
        rw [hrs] at hy
        injection hy with hy
        rw [← hy]
        exact List.cons_ne_nil y ys2

/-- Claim C8 (counterexample): cleaned records with years `[2021, 2020]`
give both years count 1, and the printed peak year is 2021 — the
first-encountered year — not the smallest year 2020. -/
theorem C8_counterexample :
    analyzePublicationsPeak
        ((cleanMyData [⟨"a", "", "2021-05-05", none⟩,
          ⟨"b", "", "2020-05-05", none⟩]).2.1) = some 2021 ∧
    getYears ((cleanMyData [⟨"a", "", "2021-05-05", none⟩,
      ⟨"b", "", "2020-05-05", none⟩]).2.1) = some [2021, 2020] ∧
    tally [2021, 2020] = [(2021, 1), (2020, 1)] ∧
    (2020 : Nat) < 2021 := by
  decide

/-- Claim C8 (amended): for a non-empty cleaned sequence the peak year is a
key of maximal count in `byYear`, and among keys sharing the maximal count
it is the one whose first occurrence in the cleaned sequence comes first
(the table lists years in first-occurrence order and `max` keeps the first
maximal key), not the smallest year value. -/
theorem C8_amended_first_max (clean : List Record) (ys : List Nat)
    (hne : clean ≠ []) (hy : getYears clean = some ys) :
    ∃ k c pre post, analyzePublicationsPeak clean = some k ∧
      tally ys = pre ++ (k, c) :: post ∧
      (∀ e ∈ pre, e.2 < c) ∧ (∀ e ∈ tally ys, e.2 ≤ c) ∧
      (tally ys).map Prod.fst = firstSeen ys := by
  have hysne : ys ≠ [] := getYears_ne_nil clean ys hne hy
  have htne : tally ys ≠ [] := tally_ne_nil ys hysne
  obtain ⟨e, r, hr⟩ : ∃ e r, tally ys = e :: r := by
    cases ht : tally ys with
    | nil => exact absurd ht htne
    | cons e r => exact ⟨e, r, rfl⟩
  have hpk : analyzePublicationsPeak clean = some (maxKeyAux e.1 e.2 r) := by
    unfold analyzePublicationsPeak
    rw [if_neg (by simp [List.isEmpty_iff, hne]), hy]
    simp only [pyMaxKey, hr]
  rcases maxKeyAux_cases r e.1 e.2 with ⟨heq, hall⟩ | ⟨pre, c, post, ht, hc, hpre, hpost⟩
  · refine ⟨e.1, e.2, [], r, by rw [hpk, heq], by simp [hr], ?_, ?_, tally_map_fst ys⟩
    · intro x hx
      simp at hx
    · intro x hx
      rw [hr] at hx
      rcases List.mem_cons.mp hx with rfl | hx
      · exact le_refl _
      · exact hall x hx
  · refine ⟨maxKeyAux e.1 e.2 r, c, e :: pre, post, hpk, ?_, ?_, ?_, tally_map_fst ys⟩
    · rw [hr, List.cons_append]
      exact congrArg (List.cons e) ht
    · intro x hx
      rcases List.mem_cons.mp hx with rfl | hx
      · exact hc
      · exact hpre x hx
    · intro x hx
      rw [hr, ht] at hx
      rcases List.mem_cons.mp hx with rfl | hx
      · exact le_of_lt hc
      · rcases List.mem_append.mp hx with hx | hx
        · exact le_of_lt (hpre x hx)
        · rcases List.mem_cons.mp hx with rfl | hx
          · exact le_refl _
          · exact hpost x hx

/-- Claim C8 witness: the amended statement at a concrete one-record
cleaned dataset. -/
theorem C8_witness :
    (([⟨"a", "", "2020-05-05", some 2020⟩] : List Record) ≠ []) ∧
    ∃ k c pre post,
      analyzePublicationsPeak [⟨"a", "", "2020-05-05", some 2020⟩] = some k ∧
      tally [2020] = pre ++ (k, c) :: post ∧
      (∀ e ∈ pre, e.2 < c) ∧ (∀ e ∈ tally [2020], e.2 ≤ c) ∧
      (tally [2020]).map Prod.fst = firstSeen [2020] :=
  ⟨by decide,
    C8_amended_first_max [⟨"a", "", "2020-05-05", some 2020⟩] [2020]
      (by decide) (by decide)⟩

/-! ### Journal-table lemmas -/

theorem countByJournalAux_eq (rs : List Record) :
    ∀ t : List (String × Nat),
      countByJournalAux t rs =
        tallyAux t ((rs.map (fun r => pyStrip r.journal)).filter
          (fun j => !j.isEmpty)) := by
  induction rs with
  | nil => intro t; rfl
  | cons r rs ih =>
    intro t
    simp only [countByJournalAux, List.map_cons, List.filter_cons]
    by_cases hj : (pyStrip r.journal).isEmpty
    · rw [if_pos hj]
      simp only [hj, Bool.not_true, Bool.false_eq_true, if_false]
      exact ih t
    · rw [if_neg hj]
      simp only [Bool.not_eq_true] at hj
      simp only [hj, Bool.not_false, if_true, tallyAux]
      exact ih (bump (pyStrip r.journal) t)

theorem countByJournal_eq (clean : List Record) :
    countByJournal clean =
      tally ((clean.map (fun r => pyStrip r.journal)).filter (fun j => !j.isEmpty)) :=
  countByJournalAux_eq clean []

theorem count_trimmed_journal (clean : List Record) (k : String) (hk : k ≠ "") :
    ((clean.map (fun r => pyStrip r.journal)).filter (fun j => !j.isEmpty)).count k =
      (clean.filter (fun r => decide (pyStrip r.journal = k))).length := by
  induction clean with
  | nil => rfl
  | cons r rs ih =>
    simp only [List.map_cons, List.filter_cons]
    by_cases hj : (pyStrip r.journal).isEmpty
    · have hemp : pyStrip r.journal = "" := by
        rcases String.isEmpty_iff (pyStrip r.journal) with ⟨mp, _⟩
        exact mp hj
      rw [show (!(pyStrip r.journal).isEmpty) = false from by simp [hj]]
      rw [show decide (pyStrip r.journal = k) = false from by
        simp [hemp, Ne.symm hk]]
      simpa using ih
    · rw [show (!(pyStrip r.journal).isEmpty) = true from by simp [hj]]
      by_cases hek : pyStrip r.journal = k
      · simp [List.count_cons, hek, ih]
      · simp [List.count_cons, hek, ih]

/-- Claim C9: the journal table keys the trimmed journal field, excludes
blank journals from the table only, its counts are the per-journal record
counts (summing to the with-journal record count, not the full cleaned
count), and each percentage divides by the full cleaned-record count. -/
theorem C9_journal_counts (clean : List Record) :
    (∀ e ∈ countByJournal clean, e.1 ≠ "" ∧ ∃ r ∈ clean, pyStrip r.journal = e.1) ∧
    sumCounts (countByJournal clean) =
      (clean.filter (fun r => !(pyStrip r.journal).isEmpty)).length ∧
    (∀ e ∈ countByJournal clean,
      e.2 = (clean.filter (fun r => decide (pyStrip r.journal = e.1))).length) ∧
    (∀ e ∈ countByJournal clean,
      journalPct e.2 clean = (e.2 : ℚ) * 100 / ((clean.length : ℚ))) := by
  have hj := countByJournal_eq clean
  have hne : ∀ e ∈ countByJournal clean, e.1 ≠ "" := by
    intro e he
    rw [hj] at he
    have hmem := mem_tally_fst_mem _ e he
    have hprop := (List.mem_filter.mp hmem).2
    intro heq
    rw [heq] at hprop
    simp only [Bool.not_eq_true'] at hprop
    exact absurd hprop (by decide)
  refine ⟨?_, ?_, ?_, ?_⟩
  · intro e he
    refine ⟨hne e he, ?_⟩
    rw [hj] at he
    have hmem := mem_tally_fst_mem _ e he
    obtain ⟨r, hr, hfr⟩ := List.mem_map.mp (List.mem_filter.mp hmem).1
    exact ⟨r, hr, hfr⟩
  · rw [hj, tally_sumCounts, List.filter_map, List.length_map]
    rfl
  · intro e he
    have hk := hne e he
    rw [hj] at he
    rw [mem_tally_count _ e he]
    exact count_trimmed_journal clean e.1 hk
  · intro e _
    unfold journalPct
    rw [div_mul_eq_mul_div]

/-- Claim C9 witness: the table clauses at a concrete cleaned dataset with
one trimmed journal and one blank journal. -/
theorem C9_witness :
    (("J", 1) ∈ countByJournal
      [⟨"a", " J ", "2020-05-06", some 2020⟩, ⟨"b", "", "2020-05-06", some 2020⟩]) ∧
    (("J", 1).1 ≠ "" ∧ ∃ r ∈
      ([⟨"a", " J ", "2020-05-06", some 2020⟩,
        ⟨"b", "", "2020-05-06", some 2020⟩] : List Record),
      pyStrip r.journal = ("J", 1).1) ∧
    (("J", 1).2 =
      (([⟨"a", " J ", "2020-05-06", some 2020⟩,
        ⟨"b", "", "2020-05-06", some 2020⟩] : List Record).filter
          (fun r => decide (pyStrip r.journal = ("J", 1).1))).length) ∧
    (journalPct ("J", 1).2
        [⟨"a", " J ", "2020-05-06", some 2020⟩, ⟨"b", "", "2020-05-06", some 2020⟩] =
      ((("J", 1).2 : ℚ)) * 100 /
        ((([⟨"a", " J ", "2020-05-06", some 2020⟩,
          ⟨"b", "", "2020-05-06", some 2020⟩] : List Record).length : ℚ))) :=
  ⟨by decide,
    (C9_journal_counts _).1 ("J", 1) (by decide),
    (C9_journal_counts _).2.2.1 ("J", 1) (by decide),
    (C9_journal_counts _).2.2.2 ("J", 1) (by decide)⟩

/-! ### Failure-mode lemmas -/

theorem clean_records_have_year (data : List Record) :
    ∀ r ∈ (cleanMyData data).2.1, ∃ y, r.year = some y := by
  intro r hr
  rw [cleanMyData, cleanAux_clean] at hr
  obtain ⟨r0, hr0, rfl⟩ := List.mem_map.mp hr
  obtain ⟨d, _, he, _, _⟩ := processRecord_kept r0 (List.mem_filter.mp hr0).2
  rw [he]
  exact ⟨d.year, rfl⟩

theorem getYears_total (l : List Record) (h : ∀ r ∈ l, ∃ y, r.year = some y) :
    ∃ ys, getYears l = some ys := by
  induction l with
  | nil => exact ⟨[], rfl⟩
  | cons r rs ih =>
    obtain ⟨y, hy⟩ := h r (List.mem_cons_self r rs)
    obtain ⟨ys, hys⟩ := ih (fun x hx => h x (List.mem_cons_of_mem r hx))
    exact ⟨y :: ys, by simp [getYears, hy, hys]⟩

/-- Claim C10 (counterexample): a cleaned set that is non-empty but has no
record with a non-blank journal makes `analyze_journals` raise
`ZeroDivisionError` (line 230) and `create_summary_report` raise
`IndexError` (line 323) — unhandled exceptions, not per-record skips or
named reported errors. -/
theorem C10_counterexample :
    (cleanMyData [⟨"a", "", "2020-05-06", none⟩]).2.1 ≠ [] ∧
    analyzeJournals ((cleanMyData [⟨"a", "", "2020-05-06", none⟩]).2.1) =
      JournalsResult.zeroDivisionError ∧
    createSummaryReport ((cleanMyData [⟨"a", "", "2020-05-06", none⟩]).2.1) "TS" =
      ReportResult.indexError := by
  decide

/-- Claim C10 (amended): on the cleaner's output, `create_summary_report`
never raises `KeyError`; it raises `IndexError` exactly when the cleaned
set is non-empty and its journal table is empty, and `analyze_journals`
raises `ZeroDivisionError` exactly when the journal table is empty; all
other runs of these operations terminate normally. -/
theorem C10_amended_failure_modes (raw : List Record) (now : String) :
    createSummaryReport ((cleanMyData raw).2.1) now ≠ ReportResult.keyError ∧
    (createSummaryReport ((cleanMyData raw).2.1) now = ReportResult.indexError ↔
      ((cleanMyData raw).2.1 ≠ [] ∧
        summaryJournalCounts ((cleanMyData raw).2.1) = [])) ∧
    (analyzeJournals ((cleanMyData raw).2.1) = JournalsResult.zeroDivisionError ↔
      countByJournal ((cleanMyData raw).2.1) = []) := by
  obtain ⟨ys, hys⟩ := getYears_total _ (clean_records_have_year raw)
  refine ⟨?_, ⟨?_, ?_⟩, ⟨?_, ?_⟩⟩
  · unfold createSummaryReport
    by_cases hemp : ((cleanMyData raw).2.1).isEmpty = true
    · simp [hemp]
    · rw [if_neg hemp, hys]
      by_cases hjc : (summaryJournalCounts ((cleanMyData raw).2.1)).isEmpty = true
      · simp [hjc]
      · simp [hjc]
  · intro h
    unfold createSummaryReport at h
    by_cases hemp : ((cleanMyData raw).2.1).isEmpty = true
    · rw [if_pos hemp] at h
      exact absurd h (by simp)
    · rw [if_neg hemp, hys] at h
      by_cases hjc : (summaryJournalCounts ((cleanMyData raw).2.1)).isEmpty = true
      · refine ⟨?_, List.isEmpty_iff.mp hjc⟩
        intro hnil
        rw [hnil] at hemp
        exact hemp rfl
      · simp only [hjc, Bool.false_eq_true, if_false] at h
        exact absurd h (by simp)
  · rintro ⟨hne, hempty⟩
    unfold createSummaryReport
    rw [if_neg (by simp [List.isEmpty_iff, hne]), hys]
    simp only []
    rw [if_pos (by rw [hempty]; rfl)]
  · intro h
    unfold analyzeJournals at h
    by_cases hz : (countByJournal ((cleanMyData raw).2.1)).length = 0
    · exact List.length_eq_zero.mp hz
    · rw [if_neg hz] at h
      exact absurd h (by simp)
  · intro h
    unfold analyzeJournals
    rw [if_pos (by rw [h]; rfl)]

/-- Claim C10 witness: the `IndexError` clause at a concrete record whose
journal is whitespace-only. -/
theorem C10_witness :
    createSummaryReport ((cleanMyData [⟨"t", " ", "2020-05-06", none⟩]).2.1) "TS" =
      ReportResult.indexError :=
  (C10_amended_failure_modes [⟨"t", " ", "2020-05-06", none⟩] "TS").2.1.mpr
    ⟨by decide, by decide⟩

/-! ### Tokenizer characterization -/

theorem isWordChar_of_lower (c : Char) (h : isLowerAlpha c = true) :
    isWordChar c = true := by
  unfold isLowerAlpha at h
  unfold isWordChar
  rw [h]
  rfl

/-- Membership in the `findall` scan: a word is produced from the state
`(runPrev, run)` iff it either completes the current run (first disjunct)
or is a later maximal lowercase run of length at least 4 whose immediate
neighbours both fail to be word characters (second disjunct). -/
theorem scanAux_mem (l : List Char) :
    ∀ (runPrev : Option Char) (run : List Char) (w : List Char),
      (w ∈ scanAux runPrev run l ↔
        (∃ t v, l = t ++ v ∧ t.all isLowerAlpha = true ∧ w = run.reverse ++ t ∧
          4 ≤ w.length ∧ edgeOk runPrev = true ∧ edgeOk v.head? = true) ∨
        (∃ u v, l = u ++ w ++ v ∧ w.all isLowerAlpha = true ∧ 4 ≤ w.length ∧
          (∃ c, u.getLast? = some c ∧ isWordChar c = false) ∧
          edgeOk v.head? = true)) := by
  induction l with
  | nil =>
    intro runPrev run w
    simp only [scanAux]
    constructor
    · intro hw
      by_cases hc : (4 ≤ run.length && edgeOk runPrev) = true
      · rw [if_pos hc] at hw
        simp only [List.mem_singleton] at hw
        subst hw
        rw [Bool.and_eq_true, decide_eq_true_eq] at hc
        left
        exact ⟨[], [], by simp, by simp, by simp, by simpa using hc.1,
          hc.2, by simp [edgeOk]⟩
      · rw [if_neg hc] at hw
        simp at hw
    · intro hw
      rcases hw with ⟨t, v, hl, _, hwe, hlen, hprev, _⟩ |
        ⟨u, v, hl, _, hlen, ⟨c, hu, _⟩, _⟩
      · obtain ⟨ht0, hv0⟩ := List.append_eq_nil.mp hl.symm
        subst ht0
        rw [List.append_nil] at hwe
        subst hwe
        rw [if_pos (by
          rw [Bool.and_eq_true, decide_eq_true_eq]
          exact ⟨by simpa using hlen, hprev⟩)]
        simp
      · have h0 : u ++ w ++ v = [] := hl.symm
        rw [List.append_eq_nil] at h0
        rw [List.append_eq_nil] at h0
        obtain ⟨⟨hu1, _⟩, _⟩ := h0
        subst hu1
        simp at hu
  | cons ch cs ih =>
    intro runPrev run w
    by_cases hlow : isLowerAlpha ch = true
    · rw [show scanAux runPrev run (ch :: cs) = scanAux runPrev (ch :: run) cs from by
        simp [scanAux, hlow]]
      rw [ih runPrev (ch :: run) w]
      constructor
      · rintro (⟨t, v, hl, ht, hwe, hlen, hprev, hv⟩ |
          ⟨u, v, hl, hw2, hlen, ⟨c, hu, hc⟩, hv⟩)
        · left
          refine ⟨ch :: t, v, by simp [hl], by simp [hlow, ht], ?_, hlen, hprev, hv⟩
          rw [hwe]
          simp
        · right
          refine ⟨ch :: u, v, by simp [hl], hw2, hlen, ⟨c, ?_, hc⟩, hv⟩
          cases u with
          | nil => simp at hu
          | cons a u2 => simpa using hu
      · rintro (⟨t, v, hl, ht, hwe, hlen, hprev, hv⟩ |
          ⟨u, v, hl, hw2, hlen, ⟨c, hu, hc⟩, hv⟩)
        · cases t with
          | nil =>
            simp only [List.nil_append] at hl
            rw [← hl] at hv
            simp only [List.head?_cons] at hv
            rw [show edgeOk (some ch) = !isWordChar ch from rfl,
              isWordChar_of_lower ch hlow] at hv
            simp at hv
          | cons a t2 =>
            simp only [List.cons_append, List.cons.injEq] at hl
            obtain ⟨rfl, hl⟩ := hl
            left
            refine ⟨t2, v, hl, ?_, ?_, hlen, hprev, hv⟩
            · simp only [List.all_cons, Bool.and_eq_true] at ht
              exact ht.2
            · rw [hwe]
              simp
        · cases u with
          | nil => simp at hu
          | cons a u2 =>
            simp only [List.cons_append, List.cons.injEq] at hl
            obtain ⟨rfl, hl⟩ := hl
            cases u2 with
            | nil =>
              simp only [List.getLast?_singleton, Option.some.injEq] at hu
              rw [← hu] at hc
              rw [isWordChar_of_lower ch hlow] at hc
              exact absurd hc (by simp)
            | cons b u3 =>
              right
              refine ⟨b :: u3, v, hl, hw2, hlen, ⟨c, ?_, hc⟩, hv⟩
              simpa using hu
    · rw [show scanAux runPrev run (ch :: cs) =
          (if 4 ≤ run.length && edgeOk runPrev && edgeOk (some ch) then [run.reverse]
            else []) ++ scanAux (some ch) [] cs from by
        simp [scanAux, hlow]]
      rw [List.mem_append, ih (some ch) [] w]
      constructor
      · rintro (hemit | ⟨t, v, hl, ht, hwe, hlen, hprev, hv⟩ |
          ⟨u, v, hl, hw2, hlen, ⟨c, hu, hc⟩, hv⟩)
        · by_cases hcond : (4 ≤ run.length && edgeOk runPrev && edgeOk (some ch)) = true
          · rw [if_pos hcond] at hemit
            simp only [List.mem_singleton] at hemit
            subst hemit
            rw [Bool.and_eq_true, Bool.and_eq_true, decide_eq_true_eq] at hcond
            left
            exact ⟨[], ch :: cs, by simp, by simp, by simp,
              by simpa using hcond.1.1, hcond.1.2, by simpa using hcond.2⟩
          · rw [if_neg hcond] at hemit
            simp at hemit
        · right
          simp only [List.reverse_nil, List.nil_append] at hwe
          subst hwe
          refine ⟨[ch], v, by simp [hl], ht, hlen, ⟨ch, by simp, ?_⟩, hv⟩
          rw [show edgeOk (some ch) = !isWordChar ch from rfl] at hprev
          simpa using hprev
        · right
          refine ⟨ch :: u, v, by simp [hl], hw2, hlen, ⟨c, ?_, hc⟩, hv⟩
          cases u with
          | nil => simp at hu
          | cons a u2 => simpa using hu
      · rintro (⟨t, v, hl, ht, hwe, hlen, hprev, hv⟩ |
          ⟨u, v, hl, hw2, hlen, ⟨c, hu, hc⟩, hv⟩)
        · cases t with
          | nil =>
            simp only [List.nil_append] at hl
            rw [List.append_nil] at hwe
            subst hwe
            left
            rw [if_pos (by
              rw [Bool.and_eq_true, Bool.and_eq_true, decide_eq_true_eq]
              refine ⟨⟨by simpa using hlen, hprev⟩, ?_⟩
              rw [← hl] at hv
              simpa using hv)]
            simp
          | cons a t2 =>
            simp only [List.cons_append, List.cons.injEq] at hl
            obtain ⟨rfl, _⟩ := hl
            simp only [List.all_cons, Bool.and_eq_true] at ht
            exact absurd ht.1 (by simp [hlow])
        · cases u with
          | nil => simp at hu
          | cons a u2 =>
            simp only [List.cons_append, List.cons.injEq] at hl
            obtain ⟨rfl, hl⟩ := hl
            cases u2 with
            | nil =>
              simp only [List.getLast?_singleton, Option.some.injEq] at hu
              right
              left
              refine ⟨w, v, hl, hw2, by simp, hlen, ?_, hv⟩
              rw [show edgeOk (some ch) = !isWordChar ch from rfl, hu, hc]
              rfl
            | cons b u3 =>
              right
              right
              refine ⟨b :: u3, v, hl, hw2, hlen, ⟨c, ?_, hc⟩, hv⟩
              simpa using hu

/-- Top-level `re.findall(r'\b[a-z]{4,}\b', ·)` membership: exactly the
maximal lowercase runs of length at least 4 whose neighbouring characters
(when they exist) are not word characters. -/
theorem findallTokens_mem (L w : List Char) :
    w ∈ findallTokens L ↔
      ∃ u v, L = u ++ w ++ v ∧ w.all isLowerAlpha = true ∧ 4 ≤ w.length ∧
        edgeOk u.getLast? = true ∧ edgeOk v.head? = true := by
  unfold findallTokens
  rw [scanAux_mem L none [] w]
  constructor
  · rintro (⟨t, v, hl, ht, hwe, hlen, _, hv⟩ |
      ⟨u, v, hl, hw2, hlen, ⟨c, hu, hc⟩, hv⟩)
    · simp only [List.reverse_nil, List.nil_append] at hwe
      subst hwe
      exact ⟨[], v, by simp [hl], ht, hlen, by simp [edgeOk], hv⟩
    · refine ⟨u, v, hl, hw2, hlen, ?_, hv⟩
      rw [hu, show edgeOk (some c) = !isWordChar c from rfl, hc]
      rfl
  · rintro ⟨u, v, hl, hw2, hlen, hu, hv⟩
    cases hu2 : u.getLast? with
    | none =>
      have hu0 : u = [] := List.getLast?_eq_none_iff.mp hu2
      subst hu0
      left
      exact ⟨w, v, by simpa using hl, hw2, by simp, hlen, rfl, hv⟩
    | some c =>
      right
      refine ⟨u, v, hl, hw2, hlen, ⟨c, hu2, ?_⟩, hv⟩
      rw [hu2, show edgeOk (some c) = !isWordChar c from rfl] at hu
      simpa using hu

theorem dropWhile_head_not {β : Type} (p : β → Bool) (l : List β) (d : β)
    (cs2 : List β) (h : l.dropWhile p = d :: cs2) : p d = false := by
  induction l with
  | nil => simp [List.dropWhile] at h
  | cons a l ih =>
    rw [List.dropWhile_cons] at h
    by_cases hp : p a = true
    · rw [if_pos hp] at h
      exact ih h
    · rw [if_neg hp] at h
      injection h with h1 _
      rw [← h1]
      simpa using hp

/-- The scan from state `(prev, run)` first finishes the current run with
the pending `takeWhile` letters (emitting it when long enough with both
anchors holding) and then continues from the character that ended it. -/
theorem scanAux_run_eq (cs : List Char) :
    ∀ (prev : Option Char) (run : List Char),
      scanAux prev run cs =
        (if 4 ≤ (run.reverse ++ cs.takeWhile isLowerAlpha).length && edgeOk prev &&
            edgeOk (cs.dropWhile isLowerAlpha).head? then
          [run.reverse ++ cs.takeWhile isLowerAlpha] else []) ++
        (match cs.dropWhile isLowerAlpha with
         | [] => []
         | d :: cs2 => scanAux (some d) [] cs2) := by
  induction cs with
  | nil =>
    intro prev run
    simp [scanAux, edgeOk]
  | cons d cs2 ih =>
    intro prev run
    by_cases hlow : isLowerAlpha d = true
    · rw [show scanAux prev run (d :: cs2) = scanAux prev (d :: run) cs2 from by
        simp [scanAux, hlow]]
      rw [ih prev (d :: run)]
      simp [List.takeWhile_cons, List.dropWhile_cons, hlow, List.append_assoc]
    · rw [show scanAux prev run (d :: cs2) =
          (if 4 ≤ run.length && edgeOk prev && edgeOk (some d) then [run.reverse]
            else []) ++ scanAux (some d) [] cs2 from by simp [scanAux, hlow]]
      simp [List.takeWhile_cons, List.dropWhile_cons, hlow]

/-- The accumulator scan equals the maximal-run enumeration
`boundaryTokens` (stated with an explicit length bound for the
induction). -/
theorem scanAux_eq_boundary (n : Nat) :
    ∀ l : List Char, l.length ≤ n → ∀ prev : Option Char,
      scanAux prev [] l = boundaryTokens prev l := by
  induction n with
  | zero =>
    intro l hl prev
    have h0 : l = [] := List.length_eq_zero.mp (Nat.le_zero.mp hl)
    subst h0
    simp [scanAux, boundaryTokens]
  | succ n ih =>
    intro l hl prev
    cases l with
    | nil => simp [scanAux, boundaryTokens]
    | cons c cs =>
      by_cases hlow : isLowerAlpha c = true
      · rw [show scanAux prev [] (c :: cs) = scanAux prev [c] cs from by
          simp [scanAux, hlow]]
        rw [scanAux_run_eq cs prev [c]]
        rw [show boundaryTokens prev (c :: cs) =
            (if 4 ≤ (c :: cs.takeWhile isLowerAlpha).length && edgeOk prev &&
                edgeOk (cs.dropWhile isLowerAlpha).head? then
              [c :: cs.takeWhile isLowerAlpha] else []) ++
              boundaryTokens (some c) (cs.dropWhile isLowerAlpha) from by
          simp [boundaryTokens, hlow]]
        have hcont : (match cs.dropWhile isLowerAlpha with
            | [] => []
            | d :: cs2 => scanAux (some d) [] cs2) =
            boundaryTokens (some c) (cs.dropWhile isLowerAlpha) := by
          cases hdw : cs.dropWhile isLowerAlpha with
          | nil => simp [boundaryTokens]
          | cons d cs2 =>
            have hdlow : isLowerAlpha d = false :=
              dropWhile_head_not isLowerAlpha cs d cs2 hdw
            rw [show boundaryTokens (some c) (d :: cs2) =
                boundaryTokens (some d) cs2 from by
              simp [boundaryTokens, hdlow]]
            refine ih cs2 ?_ (some d)
            have h1 := (List.dropWhile_sublist (l := cs) isLowerAlpha).length_le
            rw [hdw] at h1
            simp only [List.length_cons] at hl h1
            omega
        rw [hcont]
        simp
      · rw [show scanAux prev [] (c :: cs) = scanAux (some c) [] cs from by
          simp [scanAux, hlow]]
        rw [show boundaryTokens prev (c :: cs) = boundaryTokens (some c) cs from by
          simp [boundaryTokens, hlow]]
        refine ih cs ?_ (some c)
        simp only [List.length_cons] at hl
        omega

theorem findallTokens_eq_boundary (L : List Char) :
    findallTokens L = boundaryTokens none L :=
  scanAux_eq_boundary L.length L (le_refl _) none

/-- Claim C6 (counterexample): on `"abcd5"` the spec-side tokenizer (maximal
lowercase runs of length at least 4, digits acting merely as separators)
yields `["abcd"]`, but the code's `\b[a-z]{4,}\b` finds nothing — the digit
adjacent to the run defeats the word-boundary anchor. -/
theorem C6_counterexample :
    tokenizeTitle "abcd5" = [] ∧ specTokenize "abcd5" = ["abcd"] := by
  decide

/-- Claim C6 (amended): `tokenize` lower-cases the text and returns, in
left-to-right order with duplicates preserved, exactly the maximal runs of
lowercase letters of length at least 4 whose adjacent characters (when
present) are not word characters (letters, digits or underscore — so a run
touching a digit or underscore is discarded whole), minus stop words.  The
first conjunct pins the whole output list (order and multiplicity) to the
maximal-run enumeration `boundaryTokens`; the second characterizes that
enumeration's runs non-algorithmically; the examples show the published
test vector and duplicate preservation. -/
theorem C6_amended_boundary_tokens :
    (∀ title : String,
      tokenizeTitle title =
        ((boundaryTokens none (title.data.map Char.toLower)).map
          (fun l => String.mk l)).filter (fun w => !(stopWords.contains w))) ∧
    (∀ L w : List Char,
      w ∈ boundaryTokens none L ↔
        ∃ u v, L = u ++ w ++ v ∧ w.all isLowerAlpha = true ∧ 4 ≤ w.length ∧
          edgeOk u.getLast? = true ∧ edgeOk v.head? = true) ∧
    tokenizeTitle "COVID-19 vaccine study of antibody responses" =
      ["vaccine", "antibody", "responses"] ∧
    tokenizeTitle "wxyz stuff wxyz" = ["wxyz", "stuff", "wxyz"] := by
  refine ⟨?_, ?_, by decide, by decide⟩
  · intro title
    unfold tokenizeTitle
    rw [findallTokens_eq_boundary]
  · intro L w
    rw [← findallTokens_eq_boundary]
    exact findallTokens_mem L w

/-- Claim C6 witness: the run characterization applied to the token
`"vaccine"` of the example title. -/
theorem C6_witness :
    "vaccine".data ∈
      boundaryTokens none
        ("COVID-19 vaccine study of antibody responses".data.map Char.toLower) :=
  (C6_amended_boundary_tokens.2.1
      ("COVID-19 vaccine study of antibody responses".data.map Char.toLower)
      "vaccine".data).mpr
    ⟨"covid-19 ".data, " study of antibody responses".data,
      by decide, by decide, by decide, by decide, by decide⟩

end CovidAnalyzer
